/-
Verification of the track-assembly and verification core of
`greaseweazle/image/ipf.py` (IPF image reading).

The development shallowly embeds the Python source:

* `strong_data` (with its worker `sdLoop` and the weak-cursor advance
  `advanceWeak`) embeds the generator `IPFTrack.strong_data`.  Python
  machine integers are modelled as `Int`; the generator's lazily yielded
  ranges are collected into a `List`.  The Python `StopIteration` that
  terminates the generator corresponds to the `none`/empty-list cases.
* `verify_track` (with `verifyRanges`, `foundIn`, `occursB`, `pySlice`)
  embeds `IPFTrack.verify_track`.  The decoding of the flux capture into a
  raw bit sequence (`RawTrack`, `cue_at_index`) happens in an external
  module, so the captured bit sequence `raw_bits` is a parameter.
  `bitarray.itersearch` is modelled as contiguous-subsequence search.
* `get_track` (with `getRanges`, `expandTiming`, `spliceRotate`) embeds
  `IPF.get_track`.  The external CAPS decoding library is modelled as an
  oracle `CapsService`; `error.check` failures are modelled by `Except`.
  Python list/bitarray slicing is modelled by `pySlice`/`pyIdx`
  (including clamping and negative indices), and Python `%` on a positive
  modulus coincides with `Int.emod`.
-/
import Mathlib

namespace GW

/-- One `(start, length)` bit-range pair, as the Python tuples. -/
abbrev Range := Int × Int

/-- The inner `while we <= s` loop of `IPFTrack.strong_data`: pop ranges from
the weak iterator, turning each popped `(w,l)` into `ws, we = w, w+l+16`
(`weak_tol = 16`), until the current window ends after `s`.  Returns `none`
when the iterator is exhausted (the resulting `StopIteration` ends the
generator). -/
def advanceWeak (s ws we : Int) (weak : List Range) :
    Option (Int × Int × List Range) :=
  if we ≤ s then
    match weak with
    | [] => none
    | (w, l) :: rest => advanceWeak s w (w + l + 16) rest
  else some (ws, we, weak)
termination_by weak.length

-- The next two lemmas are needed for the termination argument of `sdLoop`.

theorem advanceWeak_length_le (s ws we : Int) (weak : List Range)
    (ws' we' : Int) (weak' : List Range)
    (h : advanceWeak s ws we weak = some (ws', we', weak')) :
    weak'.length ≤ weak.length := by
  induction weak generalizing ws we with
  | nil =>
    rw [advanceWeak] at h
    split at h
    · exact absurd h (by simp)
    · simp only [Option.some.injEq, Prod.mk.injEq] at h
      obtain ⟨-, -, h3⟩ := h
      subst h3
      exact le_refl _
  | cons a rest ih =>
    rw [advanceWeak] at h
    split at h
    · exact le_trans (ih a.1 (a.1 + a.2 + 16) h) (by simp)
    · simp only [Option.some.injEq, Prod.mk.injEq] at h
      obtain ⟨-, -, h3⟩ := h
      subst h3
      exact le_refl _

theorem advanceWeak_progress (s ws we : Int) (weak : List Range)
    (ws' we' : Int) (weak' : List Range)
    (h : advanceWeak s ws we weak = some (ws', we', weak')) :
    weak'.length < weak.length ∨ (weak' = weak ∧ ¬ we ≤ s) := by
  rw [advanceWeak.eq_def] at h
  split at h
  · rename_i hle
    match weak, h with
    | (w, l) :: rest, h =>
      left
      have := advanceWeak_length_le s w (w + l + 16) rest ws' we' weak' h
      simp
      omega
  · rename_i hgt
    simp only [Option.some.injEq, Prod.mk.injEq] at h
    obtain ⟨-, -, h3⟩ := h
    exact Or.inr ⟨h3.symm, hgt⟩

/-- Main loop of the `strong_data` generator.  State: current sector fragment
`[s, e)` (the Python variables `s`, `e`), the current expanded weak window
`[ws, we)`, the remaining weak ranges `weak` (the sentinel `(2^30, 1)` is
appended by `strong_data`, as `it.chain(weak, [(1<<30,1)])` does), and the
remaining sector ranges `sectors`. -/
def sdLoop (s e ws we : Int) (weak sectors : List Range) : List Range :=
  match h : advanceWeak s ws we weak with
  | none => []
  | some (ws', we', weak') =>
    if ws' < e then
      (if s < ws' then [(s, ws' - s)] else []) ++
      (if we' ≥ e then
        match sectors with
        | [] => []
        | (s2, l2) :: rest => sdLoop s2 (s2 + l2) ws' we' weak' rest
      else
        sdLoop we' e ws' we' weak' sectors)
    else
      (s, e - s) ::
      (match sectors with
       | [] => []
       | (s2, l2) :: rest => sdLoop s2 (s2 + l2) ws' we' weak' rest)
termination_by 2 * sectors.length + 2 * weak.length + (if we ≤ s then 0 else 1)
decreasing_by
  · have h1 := advanceWeak_length_le s ws we weak ws' we' weak' h
    simp_wf
    split_ifs <;> omega
  · have h1 := advanceWeak_progress s ws we weak ws' we' weak' h
    simp_wf
    rcases h1 with h1 | ⟨h1, h2⟩
    · split_ifs <;> omega
    · subst h1
      split_ifs <;> omega
  · have h1 := advanceWeak_length_le s ws we weak ws' we' weak' h
    simp_wf
    split_ifs <;> omega

/-- `IPFTrack.strong_data(sector, weak)`: the sequence of sector data areas
excluding weak sections, each weak area being expanded by the 16-bit
tolerance.  Yielded ranges are collected in order into a list. -/
def strong_data (sector weak : List Range) : List Range :=
  match sector with
  | [] => []
  | (s, l) :: rest => sdLoop s (s + l) (-1) (-1) (weak ++ [(2 ^ 30, 1)]) rest

/-- `x` lies in the half-open bit range `[r.1, r.1 + r.2)`. -/
def inR (x : Int) (r : Range) : Prop := r.1 ≤ x ∧ x < r.1 + r.2

/-- `x` lies in the weak range `w` expanded by the 16-bit tolerance,
i.e. in `[w.1, w.1 + w.2 + 16)`. -/
def inExp (x : Int) (w : Range) : Prop := w.1 ≤ x ∧ x < w.1 + w.2 + 16

/-- `x` is covered by the current expanded weak window `[ws, we)` or by one of
the remaining weak ranges (each expanded by the tolerance). -/
def weakCov (x ws we : Int) (weak : List Range) : Prop :=
  (ws ≤ x ∧ x < we) ∨ ∃ w ∈ weak, inExp x w

/-- Well-formed range list (the invariants of spec section 3): every range is
within the track bounds `[0, T]` with non-negative length, and the list is
ascending and non-overlapping. -/
def wfRanges (T : Int) (L : List Range) : Prop :=
  (∀ r ∈ L, 0 ≤ r.1 ∧ 0 ≤ r.2 ∧ r.1 + r.2 ≤ T) ∧
  List.Chain' (fun a b => a.1 + a.2 ≤ b.1) L

/-- Normalize a Python slice index against a sequence of length `len`
(clamping, and counting from the end when negative). -/
def pyIdx (len : Nat) (a : Int) : Nat :=
  if a < 0 then (a + len).toNat else min a.toNat len

/-- Python slicing `xs[a:b]` (step 1) on a list, with Python's clamping and
negative-index semantics. -/
def pySlice {α : Type} (xs : List α) (a b : Int) : List α :=
  (xs.take (pyIdx xs.length b)).drop (pyIdx xs.length a)

/-- `occursB pat seq` is true iff `pat` occurs somewhere in `seq` as a
contiguous subsequence; this models `raw_area.itersearch(sector)` producing
at least one hit. -/
def occursB (pat : List Bool) : List Bool → Bool
  | [] => pat.isEmpty
  | b :: t => pat.isPrefixOf (b :: t) || occursB pat t

/-- One iteration of the `verify_track` loop body for the strong sub-range
`r`: search for the reference slice `bits[s : s+l]` within the captured area
`raw_bits[max(splice + s - 100, 0) : splice + s + l + 100]`
(`IPFTrack.tolerance = 100`). -/
def foundIn (bits raw_bits : List Bool) (splice : Int) (r : Range) : Bool :=
  occursB (pySlice bits r.1 (r.1 + r.2))
    (pySlice raw_bits (max (splice + r.1 - 100) 0) (splice + r.1 + r.2 + 100))

/-- The `for s,l in IPFTrack.strong_data(...)` loop of `verify_track`:
`return False` on the first strong sub-range with no occurrence,
`return True` after the loop. -/
def verifyRanges (bits raw_bits : List Bool) (splice : Int) : List Range → Bool
  | [] => true
  | r :: rest =>
    if foundIn bits raw_bits splice r then verifyRanges bits raw_bits splice rest
    else false

/-- The normalized track value assembled by `IPF.get_track` (the fields of
the constructed `IPFTrack`; the fixed float `time_per_rev = 60/300` carries
no information and is omitted). -/
structure Track where
  bits : List Bool
  bit_ticks : Option (List Nat)
  splice : Int
  sectors : List Range
  weak : List Range

/-- `IPFTrack.verify_track(self, flux)`.  The decoding of `flux` into the raw
bit sequence is performed by the external `RawTrack`; `raw_bits` is that
sequence. -/
def verify_track (t : Track) (raw_bits : List Bool) : Bool :=
  verifyRanges t.bits raw_bits t.splice (strong_data t.sectors t.weak)

/-- The splice rotation of `IPF.get_track`:
`if ti.overlap: buf = buf[overlap:] + buf[:overlap]`. -/
def spliceRotate {α : Type} (overlap : Int) (xs : List α) : List α :=
  if overlap ≠ 0 then
    xs.drop (pyIdx xs.length overlap) ++ xs.take (pyIdx xs.length overlap)
  else xs

/-- The timing expansion of `IPF.get_track`: each per-byte timing value is
appended 8 times (once per bit), the result is padded with the nominal cell
value 1000 up to `tracklen`, then clipped to `tracklen`. -/
def expandTiming (carray : List Nat) (tracklen : Nat) : List Nat :=
  ((carray.flatMap fun i => List.replicate 8 i) ++
    List.replicate (tracklen - 8 * carray.length) 1000).take tracklen

/-- The sector/weak info loops of `IPF.get_track`: query the service for each
index `0 ≤ i < cnt` (failures propagate, as `error.check` raises) and append
the range with its start adjusted to be splice- rather than index-relative:
`(start - overlap) % tracklen`. -/
def getRanges (f : Nat → Except String (Int × Int)) (overlap tracklen : Int) :
    Nat → Except String (List Range)
  | 0 => Except.ok []
  | Nat.succ n => do
    let rs ← getRanges f overlap tracklen n
    let r ← f n
    Except.ok (rs ++ [((r.1 - overlap) % tracklen, r.2)])

/-- The per-track data reported by `CAPSLockTrack` (`CapsTrackInfoT2`).  The
byte buffer is modelled after its big-endian bit extraction (`trackbuf`,
`none` for a null pointer), likewise the timing buffer `timebuf`. -/
structure CapsTrackInfo where
  trackbuf : Option (List Bool)
  tracklen : Nat
  timebuf : Option (List Nat)
  overlap : Int
  sectorcnt : Nat
  weakcnt : Nat

/-- The image metadata used by `get_track` (`CapsImageInfo`). -/
structure CapsImageInfo where
  mincylinder : Int
  maxcylinder : Int
  minhead : Int
  maxhead : Int

/-- The external CAPS decoding library, as the oracle functions `get_track`
calls; an `Except.error` models a nonzero return code (which `error.check`
turns into a raised exception). -/
structure CapsService where
  lockTrack : Int → Int → Except String CapsTrackInfo
  sectorInfo : Int → Int → Nat → Except String (Int × Int)
  weakInfo : Int → Int → Nat → Except String (Int × Int)

/-- `IPF.get_track(cyl, head)`: `Except.ok none` models `return None`,
`Except.error` models a raised `error.check` failure. -/
def get_track (svc : CapsService) (pi : CapsImageInfo) (cyl head : Int) :
    Except String (Option Track) :=
  if head < pi.minhead ∨ pi.maxhead < head then Except.ok none
  else if cyl < pi.mincylinder ∨ pi.maxcylinder < cyl then Except.ok none
  else do
    let ti ← svc.lockTrack cyl head
    match ti.trackbuf with
    | none => Except.ok none
    | some buf => do
      let trackbuf := buf.take ti.tracklen
      let data ← getRanges (svc.sectorInfo cyl head) ti.overlap
        (ti.tracklen : Int) ti.sectorcnt
      let weak ← getRanges (svc.weakInfo cyl head) ti.overlap
        (ti.tracklen : Int) ti.weakcnt
      let timebuf : Option (List Nat) :=
        ti.timebuf.map fun c => expandTiming c ti.tracklen
      let trackbuf := spliceRotate ti.overlap trackbuf
      let timebuf : Option (List Nat) :=
        match timebuf with
        | some tb => some (if tb = [] then tb else spliceRotate ti.overlap tb)
        | none => none
      Except.ok (some { bits := trackbuf, bit_ticks := timebuf,
                        splice := ti.overlap, sectors := data, weak := weak })

/-- A concrete service whose `lockTrack` reports a null track buffer. -/
def svcEmpty : CapsService where
  lockTrack := fun _ _ => Except.ok
    { trackbuf := none, tracklen := 0, timebuf := none,
      overlap := 0, sectorcnt := 0, weakcnt := 0 }
  sectorInfo := fun _ _ _ => Except.error ("unused")
  weakInfo := fun _ _ _ => Except.error ("unused")

/-- A concrete service that fails every call. -/
def svcFail : CapsService where
  lockTrack := fun _ _ => Except.error ("lock failed")
  sectorInfo := fun _ _ _ => Except.error ("info failed")
  weakInfo := fun _ _ _ => Except.error ("info failed")

/-- A concrete image metadata value: cylinders 0-79, heads 0-1. -/
def piSmall : CapsImageInfo where
  mincylinder := 0
  maxcylinder := 79
  minhead := 0
  maxhead := 1


-- Unconditional unfolding lemmas for `sdLoop` (the dependent match on the
-- `advanceWeak` result blocks direct rewriting).

theorem sdLoop_some (s e ws we : Int) (weak sectors : List Range)
    (ws' we' : Int) (weak' : List Range)
    (h : advanceWeak s ws we weak = some (ws', we', weak')) :
    sdLoop s e ws we weak sectors =
      if ws' < e then
        (if s < ws' then [(s, ws' - s)] else []) ++
        (if we' ≥ e then
          match sectors with
          | [] => []
          | (s2, l2) :: rest => sdLoop s2 (s2 + l2) ws' we' weak' rest
        else
          sdLoop we' e ws' we' weak' sectors)
      else
        (s, e - s) ::
        (match sectors with
         | [] => []
         | (s2, l2) :: rest => sdLoop s2 (s2 + l2) ws' we' weak' rest) := by
  rw [sdLoop.eq_def]
  split
  · rename_i heq
    rw [h] at heq
    exact absurd heq (by simp)
  · rename_i a b c heq
    rw [h] at heq
    simp only [Option.some.injEq, Prod.mk.injEq] at heq
    obtain ⟨h1, h2, h3⟩ := heq
    subst h1; subst h2; subst h3
    rfl

theorem sdLoop_none (s e ws we : Int) (weak sectors : List Range)
    (h : advanceWeak s ws we weak = none) :
    sdLoop s e ws we weak sectors = [] := by
  rw [sdLoop.eq_def]
  split
  · rfl
  · rename_i a b c heq
    rw [h] at heq
    exact absurd heq (by simp)

/-- C7: on `sectors = [(0,100)]`, `weak = [(40,10)]` (tolerance 16),
`strong_data` yields exactly `(0,40)` and then `(66,34)`. -/
theorem strong_data_example : strong_data [(0,100)] [(40,10)] = [(0,40),(66,34)] := by
  rw [strong_data]
  norm_num
  rw [sdLoop_some 0 100 (-1) (-1) _ _ 40 66 [(2^30,1)]
    (by rw [advanceWeak]; norm_num; rw [advanceWeak]; norm_num)]
  norm_num
  rw [sdLoop_some 66 100 40 66 _ _ (2^30) (2^30+17) []
    (by rw [advanceWeak]; norm_num; rw [advanceWeak]; norm_num)]
  norm_num

-- C3: the splice rotation.

theorem spliceRotate_eq {α : Type} (o : Int) (xs : List α)
    (h0 : 0 ≤ o) (hlt : o < (xs.length : Int)) :
    spliceRotate o xs = xs.drop o.toNat ++ xs.take o.toNat := by
  by_cases ho : o = 0
  · subst ho
    simp [spliceRotate]
  · rw [spliceRotate, if_pos ho, pyIdx, if_neg (by omega)]
    have : min o.toNat xs.length = o.toNat := by omega
    rw [this]

theorem spliceRotate_inv {α : Type} (o : Int) (xs : List α)
    (h0 : 0 ≤ o) (hlt : o < (xs.length : Int)) :
    spliceRotate ((xs.length : Int) - o) (spliceRotate o xs) = xs := by
  have hlen : 0 < xs.length := by omega
  have h1 : spliceRotate o xs = xs.rotate o.toNat := by
    rw [spliceRotate_eq o xs h0 hlt, List.rotate_eq_drop_append_take (by omega)]
  have h2 : (spliceRotate o xs).length = xs.length := by
    rw [h1, List.length_rotate]
  have hm0 : ((xs.length : Int) - o) ≠ 0 := by omega
  rw [h1]
  have hpy : pyIdx (xs.rotate o.toNat).length ((xs.length : Int) - o) =
      xs.length - o.toNat := by
    rw [List.length_rotate, pyIdx, if_neg (by omega)]
    omega
  rw [spliceRotate, if_pos hm0, hpy,
    ← List.rotate_eq_drop_append_take (by rw [List.length_rotate]; omega),
    List.rotate_rotate]
  have : o.toNat + (xs.length - o.toNat) = xs.length := by omega
  rw [this, List.rotate_length]

/-- C3: for a bit sequence and a timing sequence of length `tracklen` and
`0 ≤ overlap < tracklen`, the splice rotation applied by `IPF.get_track` is a
pure left rotation by `overlap` (the prefix `[0, overlap)` moves to the end),
preserves length, is applied by the same transform to the timing sequence,
and is inverted by a further left rotation by `tracklen - overlap` (a right
rotation by `overlap`): composing the two reproduces the original sequence. -/
theorem splice_rotation (tracklen : Nat) (overlap : Int)
    (bits : List Bool) (timing : List Nat)
    (hb : bits.length = tracklen) (ht : timing.length = tracklen)
    (h0 : 0 ≤ overlap) (hlt : overlap < (tracklen : Int)) :
    spliceRotate overlap bits = bits.drop overlap.toNat ++ bits.take overlap.toNat ∧
    (spliceRotate overlap bits).length = tracklen ∧
    spliceRotate overlap timing = timing.drop overlap.toNat ++ timing.take overlap.toNat ∧
    (spliceRotate overlap timing).length = tracklen ∧
    spliceRotate ((tracklen : Int) - overlap) (spliceRotate overlap bits) = bits ∧
    spliceRotate ((tracklen : Int) - overlap) (spliceRotate overlap timing) = timing := by
  have hltb : overlap < (bits.length : Int) := by rw [hb]; exact hlt
  have hltt : overlap < (timing.length : Int) := by rw [ht]; exact hlt
  refine ⟨spliceRotate_eq overlap bits h0 hltb, ?_,
    spliceRotate_eq overlap timing h0 hltt, ?_, ?_, ?_⟩
  · rw [spliceRotate_eq overlap bits h0 hltb]
    simp only [List.length_append, List.length_drop, List.length_take, hb]
    omega
  · rw [spliceRotate_eq overlap timing h0 hltt]
    simp only [List.length_append, List.length_drop, List.length_take, ht]
    omega
  · have h5 := spliceRotate_inv overlap bits h0 hltb
    rwa [hb] at h5
  · have h5 := spliceRotate_inv overlap timing h0 hltt
    rwa [ht] at h5

/-- Witness for C3 at `tracklen = 4`, `overlap = 1`. -/
theorem splice_rotation_witness :
    [false, true, true, false].length = 4 ∧ [10, 20, 30, 40].length = 4 ∧
    (0 : Int) ≤ 1 ∧ (1 : Int) < (4 : Nat) ∧
    (spliceRotate 1 [false, true, true, false] =
      [false, true, true, false].drop (1 : Int).toNat ++
      [false, true, true, false].take (1 : Int).toNat ∧
    (spliceRotate 1 [false, true, true, false]).length = 4 ∧
    spliceRotate 1 [10, 20, 30, 40] =
      [10, 20, 30, 40].drop (1 : Int).toNat ++ [10, 20, 30, 40].take (1 : Int).toNat ∧
    (spliceRotate 1 [10, 20, 30, 40]).length = 4 ∧
    spliceRotate ((4 : Nat) - (1 : Int)) (spliceRotate 1 [false, true, true, false]) =
      [false, true, true, false] ∧
    spliceRotate ((4 : Nat) - (1 : Int)) (spliceRotate 1 [10, 20, 30, 40]) =
      [10, 20, 30, 40]) :=
  ⟨by decide, by decide, by decide, by norm_num,
   splice_rotation 4 1 [false, true, true, false] [10, 20, 30, 40]
     (by decide) (by decide) (by decide) (by norm_num)⟩

-- C4: the timing expansion.

theorem flatMap_replicate_length (c : List Nat) :
    (c.flatMap fun i => List.replicate 8 i).length = 8 * c.length := by
  induction c with
  | nil => simp
  | cons a rest ih =>
    simp only [List.flatMap_cons, List.length_append, List.length_replicate, ih,
      List.length_cons]
    ring

theorem flatMap_replicate_getElem (c : List Nat) (k : Nat) (hk : k < 8 * c.length) :
    (c.flatMap fun i => List.replicate 8 i)[k]? = (c)[k / 8]? := by
  induction c generalizing k with
  | nil => simp at hk
  | cons a rest ih =>
    rw [List.flatMap_cons]
    by_cases h8 : k < 8
    · rw [List.getElem?_append_left (by simp; omega)]
      have hdiv : k / 8 = 0 := by omega
      rw [List.getElem?_replicate, if_pos h8, hdiv]
      simp
    · rw [List.getElem?_append_right (by simp; omega)]
      have hlen : (List.replicate 8 a).length = 8 := by simp
      rw [hlen]
      have hk' : k - 8 < 8 * rest.length := by simp at hk; omega
      rw [ih (k - 8) hk']
      have hdiv : k / 8 = (k - 8) / 8 + 1 := by omega
      rw [hdiv]
      simp

/-- C4: with `B` timing buffer entries and `tracklen` bits, the expanded
per-bit timing sequence has length exactly `tracklen`; entry `k < 8·B` (for
`k < tracklen`) is buffer value `k / 8` — each buffer value replicated 8
consecutive times — and every entry from `8·B` up to `tracklen` is the
nominal value 1000; when `8·B` exceeds `tracklen` the replication is
truncated at `tracklen`. -/
theorem timing_expansion (c : List Nat) (T : Nat) :
    (expandTiming c T).length = T ∧
    (∀ k, k < 8 * c.length → k < T → (expandTiming c T)[k]? = (c)[k / 8]?) ∧
    (∀ k, 8 * c.length ≤ k → k < T → (expandTiming c T)[k]? = some 1000) := by
  refine ⟨?_, ?_, ?_⟩
  · rw [expandTiming, List.length_take, List.length_append,
      flatMap_replicate_length, List.length_replicate]
    omega
  · intro k hk hkT
    rw [expandTiming, List.getElem?_take, if_pos hkT,
      List.getElem?_append_left (by rw [flatMap_replicate_length]; omega),
      flatMap_replicate_getElem c k hk]
  · intro k hk hkT
    rw [expandTiming, List.getElem?_take, if_pos hkT,
      List.getElem?_append_right (by rw [flatMap_replicate_length]; omega),
      flatMap_replicate_length, List.getElem?_replicate]
    rw [if_pos (by omega)]

/-- Witness for C4 at `carray = [3, 5]`, `tracklen = 20`. -/
theorem timing_expansion_witness :
    (expandTiming [3, 5] 20).length = 20 ∧
    (expandTiming [3, 5] 20)[4]? = some 3 ∧
    (expandTiming [3, 5] 20)[12]? = some 5 ∧
    (expandTiming [3, 5] 20)[17]? = some 1000 :=
  ⟨(timing_expansion [3, 5] 20).1,
   (timing_expansion [3, 5] 20).2.1 4 (by norm_num) (by norm_num),
   (timing_expansion [3, 5] 20).2.1 12 (by norm_num) (by norm_num),
   (timing_expansion [3, 5] 20).2.2 17 (by norm_num) (by norm_num)⟩

-- C5: splice-relative coordinate normalization of sector and weak ranges.

/-- C5: when the service delivers range `rep i` for each query `i < cnt`, the
assembly loop stores, in order, the ranges with start recomputed as
`(reported_start - overlap) % tracklen` — a value in `[0, tracklen)` as in
Python — and the reported length unchanged. -/
theorem range_normalization (f : Nat → Except String (Int × Int))
    (overlap tracklen : Int) (cnt : Nat) (rep : Nat → Int × Int)
    (hf : ∀ i, i < cnt → f i = Except.ok (rep i)) (hT : 0 < tracklen) :
    getRanges f overlap tracklen cnt =
      Except.ok ((List.range cnt).map fun i =>
        (((rep i).1 - overlap) % tracklen, (rep i).2)) ∧
    ∀ i, i < cnt → 0 ≤ ((rep i).1 - overlap) % tracklen ∧
      ((rep i).1 - overlap) % tracklen < tracklen := by
  constructor
  · induction cnt with
    | zero => simp [getRanges]
    | succ n ih =>
      rw [getRanges, ih (fun i hi => hf i (Nat.lt_succ_of_lt hi)),
        List.range_succ]
      simp [hf n (Nat.lt_succ_self n), bind, Except.bind]
  · intro i _
    exact ⟨Int.emod_nonneg _ (ne_of_gt hT), Int.emod_lt_of_pos _ hT⟩

/-- Witness for C5: two ranges reported as `(3, 7)`, `overlap = 5`,
`tracklen = 4`; the stored start is `(3 - 5) % 4 = 2`, length unchanged. -/
theorem range_normalization_witness :
    (∀ i, i < 2 → (fun _ => (Except.ok (3, 7) : Except String (Int × Int))) i =
      Except.ok ((fun _ => (((3 : Int), (7 : Int)) : Int × Int)) i)) ∧
    (0 : Int) < 4 ∧
    getRanges (fun _ => (Except.ok (3, 7) : Except String (Int × Int))) 5 4 2 =
      Except.ok ((List.range 2).map fun i =>
        ((((fun _ => (((3 : Int), (7 : Int)) : Int × Int)) i).1 - 5) % 4,
          ((fun _ => (((3 : Int), (7 : Int)) : Int × Int)) i).2)) :=
  ⟨fun _ _ => rfl, by norm_num,
   (range_normalization (fun _ => (Except.ok (3, 7) : Except String (Int × Int)))
     5 4 2 (fun _ => (((3 : Int), (7 : Int)) : Int × Int))
     (fun _ _ => rfl) (by norm_num)).1⟩

-- C9 and C10: the early-return paths of `get_track`.

/-- C9: when the service's `lock_track` succeeds but reports no track buffer,
`get_track` returns `None` (an unformatted/empty track) — not an error and
not a partial track. -/
theorem get_track_empty (svc : CapsService) (pi : CapsImageInfo)
    (cyl head : Int)
    (hh1 : pi.minhead ≤ head) (hh2 : head ≤ pi.maxhead)
    (hc1 : pi.mincylinder ≤ cyl) (hc2 : cyl ≤ pi.maxcylinder)
    (ti : CapsTrackInfo)
    (hlock : svc.lockTrack cyl head = Except.ok ti)
    (hbuf : ti.trackbuf = none) :
    get_track svc pi cyl head = Except.ok none := by
  rw [get_track, if_neg (by omega), if_neg (by omega)]
  simp only [bind, Except.bind, hlock, hbuf]

/-- Witness for C9: a service reporting a null track buffer at track 0.0. -/
theorem get_track_empty_witness :
    piSmall.minhead ≤ 0 ∧ (0 : Int) ≤ piSmall.maxhead ∧
    piSmall.mincylinder ≤ 0 ∧ (0 : Int) ≤ piSmall.maxcylinder ∧
    svcEmpty.lockTrack 0 0 = Except.ok
      { trackbuf := none, tracklen := 0, timebuf := none,
        overlap := 0, sectorcnt := 0, weakcnt := 0 } ∧
    get_track svcEmpty piSmall 0 0 = Except.ok none :=
  ⟨by norm_num [piSmall], by norm_num [piSmall], by norm_num [piSmall],
   by norm_num [piSmall], rfl,
   get_track_empty svcEmpty piSmall 0 0
     (by norm_num [piSmall]) (by norm_num [piSmall]) (by norm_num [piSmall])
     (by norm_num [piSmall]) _ rfl rfl⟩

/-- C10: for a head or cylinder outside the image's ranges, `get_track`
returns `None` — the same result as an unformatted track, not an error — and
does so without consulting the decoding service at all: the result is the
same for every service oracle. -/
theorem get_track_out_of_range (svc svc' : CapsService) (pi : CapsImageInfo)
    (cyl head : Int)
    (h : head < pi.minhead ∨ pi.maxhead < head ∨
         cyl < pi.mincylinder ∨ pi.maxcylinder < cyl) :
    get_track svc pi cyl head = Except.ok none ∧
    get_track svc pi cyl head = get_track svc' pi cyl head := by
  by_cases h1 : head < pi.minhead ∨ pi.maxhead < head
  · rw [get_track, if_pos h1, get_track, if_pos h1]
    exact ⟨rfl, rfl⟩
  · have h2 : cyl < pi.mincylinder ∨ pi.maxcylinder < cyl := by tauto
    rw [get_track, if_neg h1, if_pos h2, get_track, if_neg h1, if_pos h2]
    exact ⟨rfl, rfl⟩

/-- Witness for C10: head 5 is outside `[0, 1]`, with a service that would
fail every call were it consulted. -/
theorem get_track_out_of_range_witness :
    ((5 : Int) < piSmall.minhead ∨ piSmall.maxhead < 5 ∨
     (0 : Int) < piSmall.mincylinder ∨ piSmall.maxcylinder < 0) ∧
    get_track svcFail piSmall 0 5 = Except.ok none ∧
    get_track svcFail piSmall 0 5 = get_track svcEmpty piSmall 0 5 :=
  ⟨by norm_num [piSmall],
   get_track_out_of_range svcFail svcEmpty piSmall 0 5 (by norm_num [piSmall])⟩

-- C2: characterization of the verify_track scan.

theorem occursB_iff (pat seq : List Bool) :
    occursB pat seq = true ↔ ∃ u v, u ++ pat ++ v = seq := by
  induction seq with
  | nil =>
    simp only [occursB, List.isEmpty_iff]
    constructor
    · intro h
      exact ⟨[], [], by simp [h]⟩
    · rintro ⟨u, v, h⟩
      have h2 : u = [] ∧ pat = [] ∧ v = [] := by simpa using h
      exact h2.2.1
  | cons b t ih =>
    simp only [occursB, Bool.or_eq_true, List.isPrefixOf_iff_prefix, ih]
    constructor
    · rintro (⟨v, hv⟩ | ⟨u, v, h⟩)
      · exact ⟨[], v, by simpa using hv⟩
      · exact ⟨b :: u, v, by simp [h]⟩
    · rintro ⟨u, v, h⟩
      match u with
      | [] =>
        exact Or.inl ⟨v, by simpa using h⟩
      | c :: u' =>
        simp only [List.cons_append, List.cons.injEq] at h
        exact Or.inr ⟨u', v, h.2⟩

theorem verifyRanges_false_iff (bits raw_bits : List Bool) (splice : Int)
    (rs : List Range) :
    (verifyRanges bits raw_bits splice rs = false ↔
      ∃ r ∈ rs, foundIn bits raw_bits splice r = false) := by
  induction rs with
  | nil => simp [verifyRanges]
  | cons r rest ih =>
    rw [verifyRanges]
    by_cases hf : foundIn bits raw_bits splice r
    · rw [if_pos hf]
      simp [ih, hf]
    · rw [if_neg hf]
      simp only [Bool.not_eq_true] at hf
      simp [hf]

theorem verifyRanges_shortcircuit (bits raw_bits : List Bool) (splice : Int)
    (pre : List Range) (r : Range) (post post' : List Range)
    (hr : foundIn bits raw_bits splice r = false) :
    verifyRanges bits raw_bits splice (pre ++ r :: post) =
      verifyRanges bits raw_bits splice (pre ++ r :: post') := by
  induction pre with
  | nil =>
    simp only [List.nil_append, verifyRanges, hr]
    rw [if_neg (by simp), if_neg (by simp)]
  | cons p pre' ih =>
    simp only [List.cons_append, verifyRanges, List.append_eq, ih]

/-- C2: `verify_track` returns `false` iff some strong sub-range `(s, l)` of
`strong_data(sectors, weak)` has its reference slice `bits[s : s+l]` occur
nowhere as a contiguous subsequence of the captured bit sequence restricted
to the window `[max(0, splice + s - 100), splice + s + l + 100)`; it returns
`true` iff every strong sub-range has at least one occurrence; and the scan
short-circuits at the first missing sub-range — ranges after it cannot
change the result. -/
theorem verify_track_spec (t : Track) (raw_bits : List Bool) :
    (verify_track t raw_bits = false ↔
      ∃ r ∈ strong_data t.sectors t.weak,
        ¬ ∃ u v, u ++ pySlice t.bits r.1 (r.1 + r.2) ++ v =
          pySlice raw_bits (max (t.splice + r.1 - 100) 0)
            (t.splice + r.1 + r.2 + 100)) ∧
    (verify_track t raw_bits = true ↔
      ∀ r ∈ strong_data t.sectors t.weak,
        ∃ u v, u ++ pySlice t.bits r.1 (r.1 + r.2) ++ v =
          pySlice raw_bits (max (t.splice + r.1 - 100) 0)
            (t.splice + r.1 + r.2 + 100)) ∧
    (∀ pre r post post', strong_data t.sectors t.weak = pre ++ r :: post →
      foundIn t.bits raw_bits t.splice r = false →
      verify_track t raw_bits =
        verifyRanges t.bits raw_bits t.splice (pre ++ r :: post')) := by
  have hversion : ∀ r : Range, (foundIn t.bits raw_bits t.splice r = false ↔
      ¬ ∃ u v, u ++ pySlice t.bits r.1 (r.1 + r.2) ++ v =
        pySlice raw_bits (max (t.splice + r.1 - 100) 0)
          (t.splice + r.1 + r.2 + 100)) := by
    intro r
    rw [← occursB_iff]
    rw [foundIn]
    constructor
    · intro h
      simp [h]
    · intro h
      simpa using h
  refine ⟨?_, ?_, ?_⟩
  · rw [verify_track, verifyRanges_false_iff]
    constructor
    · rintro ⟨r, hr, hf⟩
      exact ⟨r, hr, (hversion r).mp hf⟩
    · rintro ⟨r, hr, hf⟩
      exact ⟨r, hr, (hversion r).mpr hf⟩
  · rw [verify_track]
    constructor
    · intro h r hr
      by_contra hno
      have : verifyRanges t.bits raw_bits t.splice
          (strong_data t.sectors t.weak) = false :=
        (verifyRanges_false_iff _ _ _ _).mpr ⟨r, hr, (hversion r).mpr hno⟩
      rw [h] at this
      exact absurd this (by simp)
    · intro h
      cases hb : verifyRanges t.bits raw_bits t.splice
          (strong_data t.sectors t.weak) with
      | true => rfl
      | false =>
        obtain ⟨r, hr, hf⟩ := (verifyRanges_false_iff _ _ _ _).mp hb
        exact absurd (h r hr) ((hversion r).mp hf)
  · intro pre r post post' hsplit hf
    rw [verify_track, hsplit]
    exact verifyRanges_shortcircuit _ _ _ pre r post post' hf

/-- Witness for C2 at a concrete track (one all-strong sector of 2 bits) and
a matching capture. -/
theorem verify_track_spec_witness :
    (verify_track
        { bits := [true, false], bit_ticks := none, splice := 0,
          sectors := [(0, 2)], weak := [] } [true, false] = true ↔
      ∀ r ∈ strong_data [((0 : Int), (2 : Int))] [],
        ∃ u v, u ++ pySlice [true, false] r.1 (r.1 + r.2) ++ v =
          pySlice [true, false] (max ((0 : Int) + r.1 - 100) 0)
            (0 + r.1 + r.2 + 100)) :=
  (verify_track_spec
    { bits := [true, false], bit_ticks := none, splice := 0,
      sectors := [(0, 2)], weak := [] } [true, false]).2.1

-- Auxiliary facts about the weak-cursor advance, used for C1, C6 and C8.

theorem advanceWeak_stop (s ws we : Int) (weak : List Range)
    (ws' we' : Int) (weak' : List Range)
    (h : advanceWeak s ws we weak = some (ws', we', weak')) : s < we' := by
  induction weak generalizing ws we with
  | nil =>
    rw [advanceWeak] at h
    split at h
    · exact absurd h (by simp)
    · rename_i hgt
      simp only [Option.some.injEq, Prod.mk.injEq] at h
      obtain ⟨-, h2, -⟩ := h
      omega
  | cons a rest ih =>
    rw [advanceWeak] at h
    split at h
    · exact ih a.1 (a.1 + a.2 + 16) h
    · rename_i hgt
      simp only [Option.some.injEq, Prod.mk.injEq] at h
      obtain ⟨-, h2, -⟩ := h
      omega

theorem advanceWeak_cov (s ws we : Int) (weak : List Range)
    (ws' we' : Int) (weak' : List Range)
    (h : advanceWeak s ws we weak = some (ws', we', weak'))
    (x : Int) (hx : s ≤ x) :
    weakCov x ws we weak ↔ weakCov x ws' we' weak' := by
  induction weak generalizing ws we with
  | nil =>
    rw [advanceWeak] at h
    split at h
    · exact absurd h (by simp)
    · simp only [Option.some.injEq, Prod.mk.injEq] at h
      obtain ⟨h1, h2, h3⟩ := h
      subst h1; subst h2; subst h3
      exact Iff.rfl
  | cons a rest ih =>
    rw [advanceWeak] at h
    split at h
    · rename_i hle
      have hstep : weakCov x ws we (a :: rest) ↔
          weakCov x a.1 (a.1 + a.2 + 16) rest := by
        unfold weakCov inExp
        simp only [List.mem_cons]
        constructor
        · rintro (⟨h1, h2⟩ | ⟨w, (rfl | hw), hin⟩)
          · omega
          · exact Or.inl ⟨hin.1, hin.2⟩
          · exact Or.inr ⟨w, hw, hin⟩
        · rintro (⟨h1, h2⟩ | ⟨w, hw, hin⟩)
          · exact Or.inr ⟨a, Or.inl rfl, h1, h2⟩
          · exact Or.inr ⟨w, Or.inr hw, hin⟩
      rw [hstep]
      exact ih a.1 (a.1 + a.2 + 16) h
    · simp only [Option.some.injEq, Prod.mk.injEq] at h
      obtain ⟨h1, h2, h3⟩ := h
      subst h1; subst h2; subst h3
      exact Iff.rfl

theorem advanceWeak_sorted (s ws we : Int) (weak : List Range)
    (ws' we' : Int) (weak' : List Range)
    (h : advanceWeak s ws we weak = some (ws', we', weak'))
    (hs : List.Chain' (fun a b => a ≤ b) (ws :: weak.map Prod.fst)) :
    List.Chain' (fun a b => a ≤ b) (ws' :: weak'.map Prod.fst) := by
  induction weak generalizing ws we with
  | nil =>
    rw [advanceWeak] at h
    split at h
    · exact absurd h (by simp)
    · simp only [Option.some.injEq, Prod.mk.injEq] at h
      obtain ⟨h1, h2, h3⟩ := h
      subst h1; subst h2; subst h3
      exact hs
  | cons a rest ih =>
    rw [advanceWeak] at h
    split at h
    · rw [List.map_cons, List.chain'_cons] at hs
      exact ih a.1 (a.1 + a.2 + 16) h hs.2
    · simp only [Option.some.injEq, Prod.mk.injEq] at h
      obtain ⟨h1, h2, h3⟩ := h
      subst h1; subst h2; subst h3
      exact hs

theorem advanceWeak_bnd (T : Int) (s ws we : Int) (weak : List Range)
    (ws' we' : Int) (weak' : List Range)
    (h : advanceWeak s ws we weak = some (ws', we', weak'))
    (hP : ∀ w ∈ weak, w.1 + w.2 ≤ T ∨ 2 ^ 30 ≤ w.1)
    (hc : we ≤ T + 16 ∨ 2 ^ 30 ≤ ws) :
    (∀ w ∈ weak', w.1 + w.2 ≤ T ∨ 2 ^ 30 ≤ w.1) ∧
    (we' ≤ T + 16 ∨ 2 ^ 30 ≤ ws') := by
  induction weak generalizing ws we with
  | nil =>
    rw [advanceWeak] at h
    split at h
    · exact absurd h (by simp)
    · simp only [Option.some.injEq, Prod.mk.injEq] at h
      obtain ⟨h1, h2, h3⟩ := h
      subst h1; subst h2; subst h3
      exact ⟨hP, hc⟩
  | cons a rest ih =>
    rw [advanceWeak] at h
    split at h
    · refine ih a.1 (a.1 + a.2 + 16) h
        (fun w hw => hP w (List.mem_cons_of_mem a hw)) ?_
      rcases hP a (List.mem_cons_self a rest) with h1 | h1
      · exact Or.inl (by omega)
      · exact Or.inr h1
    · simp only [Option.some.injEq, Prod.mk.injEq] at h
      obtain ⟨h1, h2, h3⟩ := h
      subst h1; subst h2; subst h3
      exact ⟨hP, hc⟩

theorem advanceWeak_big (s ws we : Int) (weak : List Range)
    (ws' we' : Int) (weak' : List Range)
    (h : advanceWeak s ws we weak = some (ws', we', weak'))
    (hs16 : s ≤ 2 ^ 30 + 16)
    (hb : (∃ w ∈ weak, 2 ^ 30 + 1 ≤ w.1 + w.2) ∨ 2 ^ 30 + 17 ≤ we) :
    (∃ w ∈ weak', 2 ^ 30 + 1 ≤ w.1 + w.2) ∨ 2 ^ 30 + 17 ≤ we' := by
  induction weak generalizing ws we with
  | nil =>
    rw [advanceWeak] at h
    split at h
    · exact absurd h (by simp)
    · simp only [Option.some.injEq, Prod.mk.injEq] at h
      obtain ⟨h1, h2, h3⟩ := h
      subst h1; subst h2; subst h3
      exact hb
  | cons a rest ih =>
    rw [advanceWeak] at h
    split at h
    · rename_i hle
      refine ih a.1 (a.1 + a.2 + 16) h ?_
      rcases hb with ⟨w, hw, hbig⟩ | hcur
      · rcases List.mem_cons.mp hw with rfl | hw2
        · exact Or.inr (by omega)
        · exact Or.inl ⟨w, hw2, hbig⟩
      · omega
    · simp only [Option.some.injEq, Prod.mk.injEq] at h
      obtain ⟨h1, h2, h3⟩ := h
      subst h1; subst h2; subst h3
      exact hb

theorem advanceWeak_ne_none (s ws we : Int) (weak : List Range)
    (hs16 : s ≤ 2 ^ 30 + 16)
    (hb : (∃ w ∈ weak, 2 ^ 30 + 1 ≤ w.1 + w.2) ∨ 2 ^ 30 + 17 ≤ we) :
    advanceWeak s ws we weak ≠ none := by
  induction weak generalizing ws we with
  | nil =>
    rw [advanceWeak]
    split
    · rename_i hle
      rcases hb with ⟨w, hw, _⟩ | hcur
      · exact absurd hw (by simp)
      · omega
    · simp
  | cons a rest ih =>
    rw [advanceWeak]
    split
    · rename_i hle
      refine ih a.1 (a.1 + a.2 + 16) ?_
      rcases hb with ⟨w, hw, hbig⟩ | hcur
      · rcases List.mem_cons.mp hw with rfl | hw2
        · exact Or.inr (by omega)
        · exact Or.inl ⟨w, hw2, hbig⟩
      · omega
    · simp

theorem advanceWeak_wlen (s ws we : Int) (weak : List Range)
    (ws' we' : Int) (weak' : List Range)
    (h : advanceWeak s ws we weak = some (ws', we', weak'))
    (hl : ∀ w ∈ weak, 0 ≤ w.2) (hc : ws ≤ we) :
    (∀ w ∈ weak', 0 ≤ w.2) ∧ ws' ≤ we' := by
  induction weak generalizing ws we with
  | nil =>
    rw [advanceWeak] at h
    split at h
    · exact absurd h (by simp)
    · simp only [Option.some.injEq, Prod.mk.injEq] at h
      obtain ⟨h1, h2, h3⟩ := h
      subst h1; subst h2; subst h3
      exact ⟨hl, hc⟩
  | cons a rest ih =>
    rw [advanceWeak] at h
    split at h
    · refine ih a.1 (a.1 + a.2 + 16) h
        (fun w hw => hl w (List.mem_cons_of_mem a hw)) ?_
      have := hl a (List.mem_cons_self a rest)
      omega
    · simp only [Option.some.injEq, Prod.mk.injEq] at h
      obtain ⟨h1, h2, h3⟩ := h
      subst h1; subst h2; subst h3
      exact ⟨hl, hc⟩

theorem chain_head_le (a : Range) (rest : List Range)
    (hch : List.Chain' (fun p q => p.1 + p.2 ≤ q.1) (a :: rest))
    (hlen : ∀ r ∈ rest, 0 ≤ r.2) :
    ∀ r ∈ rest, a.1 + a.2 ≤ r.1 := by
  induction rest generalizing a with
  | nil => simp
  | cons b rest2 ih =>
    rw [List.chain'_cons] at hch
    intro r hr
    rcases List.mem_cons.mp hr with rfl | hr2
    · exact hch.1
    · have hb := ih b hch.2 (fun q hq => hlen q (List.mem_cons_of_mem b hq)) r hr2
      have h0 : 0 ≤ b.2 := hlen b (List.mem_cons_self b rest2)
      omega

theorem sorted_head_le (c : Int) (l : List Range)
    (h : List.Chain' (fun a b => a ≤ b) (c :: l.map Prod.fst)) :
    ∀ w ∈ l, c ≤ w.1 := by
  induction l generalizing c with
  | nil => simp
  | cons a rest ih =>
    rw [List.map_cons, List.chain'_cons] at h
    intro w hw
    rcases List.mem_cons.mp hw with rfl | hw2
    · exact h.1
    · exact le_trans h.1 (ih a.1 h.2 w hw2)

theorem sdLoop_subset (s e ws we : Int) (weak sectors : List Range) :
    ∀ r ∈ sdLoop s e ws we weak sectors,
      (s ≤ r.1 ∧ r.1 + r.2 ≤ e) ∨
      ∃ sec ∈ sectors, sec.1 ≤ r.1 ∧ r.1 + r.2 ≤ sec.1 + sec.2 := by
  induction s, e, ws, we, weak, sectors using sdLoop.induct with
  | case1 s e ws we weak sectors h =>
    rw [sdLoop_none s e ws we weak sectors h]
    simp
  | case2 s e ws we weak sectors ws' we' weak' h hlt ihm ihc =>
    intro r hr
    rw [sdLoop_some s e ws we weak sectors ws' we' weak' h, if_pos hlt] at hr
    have hstop := advanceWeak_stop s ws we weak ws' we' weak' h
    rcases List.mem_append.mp hr with hy | hrec
    · by_cases hsw : s < ws'
      · rw [if_pos hsw] at hy
        simp only [List.mem_singleton] at hy
        subst hy
        exact Or.inl ⟨le_refl _, by omega⟩
      · rw [if_neg hsw] at hy
        exact absurd hy (by simp)
    · by_cases hge : we' ≥ e
      · rw [if_pos hge] at hrec
        match sectors, ihm with
        | [], _ => exact absurd hrec (by simp)
        | (s2, l2) :: rest, ihm =>
          rcases ihm r hrec with ⟨h1, h2⟩ | ⟨sec, hsec, hb⟩
          · exact Or.inr ⟨(s2, l2), List.mem_cons_self _ _, h1, h2⟩
          · exact Or.inr ⟨sec, List.mem_cons_of_mem _ hsec, hb⟩
      · rw [if_neg hge] at hrec
        rcases ihc r hrec with ⟨h1, h2⟩ | hsec
        · exact Or.inl ⟨by omega, h2⟩
        · exact Or.inr hsec
  | case3 s e ws we weak sectors ws' we' weak' h hlt ihm =>
    intro r hr
    rw [sdLoop_some s e ws we weak sectors ws' we' weak' h, if_neg hlt] at hr
    rcases List.mem_cons.mp hr with rfl | hrec
    · exact Or.inl ⟨le_refl _, by omega⟩
    · match sectors, ihm with
      | [], _ => exact absurd hrec (by simp)
      | (s2, l2) :: rest, ihm =>
        rcases ihm r hrec with ⟨h1, h2⟩ | ⟨sec, hsec, hb⟩
        · exact Or.inr ⟨(s2, l2), List.mem_cons_self _ _, h1, h2⟩
        · exact Or.inr ⟨sec, List.mem_cons_of_mem _ hsec, hb⟩

theorem sdLoop_start_ge (s e ws we : Int) (weak sectors : List Range) :
    s ≤ e → (∀ r ∈ sectors, e ≤ r.1 ∧ 0 ≤ r.2) →
    List.Chain' (fun p q => p.1 + p.2 ≤ q.1) sectors →
    ∀ r ∈ sdLoop s e ws we weak sectors, s ≤ r.1 := by
  induction s, e, ws, we, weak, sectors using sdLoop.induct with
  | case1 s e ws we weak sectors h =>
    intro _ _ _
    rw [sdLoop_none s e ws we weak sectors h]
    simp
  | case2 s e ws we weak sectors ws' we' weak' h hlt ihm ihc =>
    intro hse hsec hch r hr
    rw [sdLoop_some s e ws we weak sectors ws' we' weak' h, if_pos hlt] at hr
    have hstop := advanceWeak_stop s ws we weak ws' we' weak' h
    rcases List.mem_append.mp hr with hy | hrec
    · by_cases hsw : s < ws'
      · rw [if_pos hsw] at hy
        simp only [List.mem_singleton] at hy
        subst hy
        exact le_refl _
      · rw [if_neg hsw] at hy
        exact absurd hy (by simp)
    · by_cases hge : we' ≥ e
      · rw [if_pos hge] at hrec
        match sectors, hsec, hch, ihm with
        | [], _, _, _ => exact absurd hrec (by simp)
        | (s2, l2) :: rest, hsec, hch, ihm =>
          have hs2 := hsec (s2, l2) (List.mem_cons_self _ _)
          have hrest : ∀ q ∈ rest, s2 + l2 ≤ q.1 ∧ 0 ≤ q.2 := fun q hq =>
            ⟨chain_head_le (s2, l2) rest hch
              (fun p hp => (hsec p (List.mem_cons_of_mem _ hp)).2) q hq,
             (hsec q (List.mem_cons_of_mem _ hq)).2⟩
          have := ihm (by omega) hrest (List.Chain'.tail hch) r hrec
          omega
      · rw [if_neg hge] at hrec
        have := ihc (by omega) hsec hch r hrec
        omega
  | case3 s e ws we weak sectors ws' we' weak' h hlt ihm =>
    intro hse hsec hch r hr
    rw [sdLoop_some s e ws we weak sectors ws' we' weak' h, if_neg hlt] at hr
    rcases List.mem_cons.mp hr with rfl | hrec
    · exact le_refl _
    · match sectors, hsec, hch, ihm with
      | [], _, _, _ => exact absurd hrec (by simp)
      | (s2, l2) :: rest, hsec, hch, ihm =>
        have hs2 := hsec (s2, l2) (List.mem_cons_self _ _)
        have hrest : ∀ q ∈ rest, s2 + l2 ≤ q.1 ∧ 0 ≤ q.2 := fun q hq =>
          ⟨chain_head_le (s2, l2) rest hch
            (fun p hp => (hsec p (List.mem_cons_of_mem _ hp)).2) q hq,
           (hsec q (List.mem_cons_of_mem _ hq)).2⟩
        have := ihm (by omega) hrest (List.Chain'.tail hch) r hrec
        omega

theorem sdLoop_pos (s e ws we : Int) (weak sectors : List Range) :
    s < e → (∀ r ∈ sectors, 0 < r.2) →
    ∀ r ∈ sdLoop s e ws we weak sectors, 0 < r.2 := by
  induction s, e, ws, we, weak, sectors using sdLoop.induct with
  | case1 s e ws we weak sectors h =>
    intro _ _
    rw [sdLoop_none s e ws we weak sectors h]
    simp
  | case2 s e ws we weak sectors ws' we' weak' h hlt ihm ihc =>
    intro hse hsec r hr
    rw [sdLoop_some s e ws we weak sectors ws' we' weak' h, if_pos hlt] at hr
    rcases List.mem_append.mp hr with hy | hrec
    · by_cases hsw : s < ws'
      · rw [if_pos hsw] at hy
        simp only [List.mem_singleton] at hy
        subst hy
        simp only []
        omega
      · rw [if_neg hsw] at hy
        exact absurd hy (by simp)
    · by_cases hge : we' ≥ e
      · rw [if_pos hge] at hrec
        match sectors, hsec, ihm with
        | [], _, _ => exact absurd hrec (by simp)
        | (s2, l2) :: rest, hsec, ihm =>
          have hl2 := hsec (s2, l2) (List.mem_cons_self _ _)
          exact ihm (by simp at hl2; omega)
            (fun q hq => hsec q (List.mem_cons_of_mem _ hq)) r hrec
      · rw [if_neg hge] at hrec
        exact ihc (by omega) hsec r hrec
  | case3 s e ws we weak sectors ws' we' weak' h hlt ihm =>
    intro hse hsec r hr
    rw [sdLoop_some s e ws we weak sectors ws' we' weak' h, if_neg hlt] at hr
    rcases List.mem_cons.mp hr with rfl | hrec
    · simp only []
      omega
    · match sectors, hsec, ihm with
      | [], _, _ => exact absurd hrec (by simp)
      | (s2, l2) :: rest, hsec, ihm =>
        have hl2 := hsec (s2, l2) (List.mem_cons_self _ _)
        exact ihm (by simp at hl2; omega)
          (fun q hq => hsec q (List.mem_cons_of_mem _ hq)) r hrec

theorem sdLoop_pairwise (s e ws we : Int) (weak sectors : List Range) :
    s ≤ e → (∀ r ∈ sectors, e ≤ r.1 ∧ 0 ≤ r.2) →
    List.Chain' (fun p q => p.1 + p.2 ≤ q.1) sectors →
    (∀ w ∈ weak, 0 ≤ w.2) → ws ≤ we →
    List.Pairwise (fun a b => a.1 + a.2 ≤ b.1)
      (sdLoop s e ws we weak sectors) := by
  induction s, e, ws, we, weak, sectors using sdLoop.induct with
  | case1 s e ws we weak sectors h =>
    intro _ _ _ _ _
    rw [sdLoop_none s e ws we weak sectors h]
    simp
  | case2 s e ws we weak sectors ws' we' weak' h hlt ihm ihc =>
    intro hse hsec hch hwlen hcur
    rw [sdLoop_some s e ws we weak sectors ws' we' weak' h, if_pos hlt]
    have hstop := advanceWeak_stop s ws we weak ws' we' weak' h
    obtain ⟨hwlen', hcur'⟩ :=
      advanceWeak_wlen s ws we weak ws' we' weak' h hwlen hcur
    rw [List.pairwise_append]
    refine ⟨?_, ?_, ?_⟩
    · by_cases hsw : s < ws'
      · rw [if_pos hsw]
        simp
      · rw [if_neg hsw]
        simp
    · by_cases hge : we' ≥ e
      · rw [if_pos hge]
        match sectors, hsec, hch, ihm with
        | [], _, _, _ => simp
        | (s2, l2) :: rest, hsec, hch, ihm =>
          have hs2 := hsec (s2, l2) (List.mem_cons_self _ _)
          have hrest : ∀ q ∈ rest, s2 + l2 ≤ q.1 ∧ 0 ≤ q.2 := fun q hq =>
            ⟨chain_head_le (s2, l2) rest hch
              (fun p hp => (hsec p (List.mem_cons_of_mem _ hp)).2) q hq,
             (hsec q (List.mem_cons_of_mem _ hq)).2⟩
          exact ihm (by omega) hrest (List.Chain'.tail hch) hwlen' hcur'
      · rw [if_neg hge]
        exact ihc (by omega) hsec hch hwlen' hcur'
    · intro a ha b hb
      by_cases hsw : s < ws'
      · rw [if_pos hsw] at ha
        simp only [List.mem_singleton] at ha
        subst ha
        by_cases hge : we' ≥ e
        · rw [if_pos hge] at hb
          match sectors, hsec, hch, hb with
          | [], _, _, hb => exact absurd hb (by simp)
          | (s2, l2) :: rest, hsec, hch, hb =>
            have hs2 := hsec (s2, l2) (List.mem_cons_self _ _)
            have hrest : ∀ q ∈ rest, s2 + l2 ≤ q.1 ∧ 0 ≤ q.2 := fun q hq =>
              ⟨chain_head_le (s2, l2) rest hch
                (fun p hp => (hsec p (List.mem_cons_of_mem _ hp)).2) q hq,
               (hsec q (List.mem_cons_of_mem _ hq)).2⟩
            have hb1 := sdLoop_start_ge s2 (s2 + l2) ws' we' weak' rest
              (by omega) hrest (List.Chain'.tail hch) b hb
            simp only []
            omega
        · rw [if_neg hge] at hb
          have hb1 := sdLoop_start_ge we' e ws' we' weak' sectors
            (by omega) hsec hch b hb
          simp only []
          omega
      · rw [if_neg hsw] at ha
        exact absurd ha (by simp)
  | case3 s e ws we weak sectors ws' we' weak' h hlt ihm =>
    intro hse hsec hch hwlen hcur
    rw [sdLoop_some s e ws we weak sectors ws' we' weak' h, if_neg hlt]
    obtain ⟨hwlen', hcur'⟩ :=
      advanceWeak_wlen s ws we weak ws' we' weak' h hwlen hcur
    rw [List.pairwise_cons]
    constructor
    · intro b hb
      match sectors, hsec, hch, hb with
      | [], _, _, hb => exact absurd hb (by simp)
      | (s2, l2) :: rest, hsec, hch, hb =>
        have hs2 := hsec (s2, l2) (List.mem_cons_self _ _)
        have hrest : ∀ q ∈ rest, s2 + l2 ≤ q.1 ∧ 0 ≤ q.2 := fun q hq =>
          ⟨chain_head_le (s2, l2) rest hch
            (fun p hp => (hsec p (List.mem_cons_of_mem _ hp)).2) q hq,
           (hsec q (List.mem_cons_of_mem _ hq)).2⟩
        have hb1 := sdLoop_start_ge s2 (s2 + l2) ws' we' weak' rest
          (by omega) hrest (List.Chain'.tail hch) b hb
        simp only []
        omega
    · match sectors, hsec, hch, ihm with
      | [], _, _, _ => simp
      | (s2, l2) :: rest, hsec, hch, ihm =>
        have hs2 := hsec (s2, l2) (List.mem_cons_self _ _)
        have hrest : ∀ q ∈ rest, s2 + l2 ≤ q.1 ∧ 0 ≤ q.2 := fun q hq =>
          ⟨chain_head_le (s2, l2) rest hch
            (fun p hp => (hsec p (List.mem_cons_of_mem _ hp)).2) q hq,
           (hsec q (List.mem_cons_of_mem _ hq)).2⟩
        exact ihm (by omega) hrest (List.Chain'.tail hch) hwlen' hcur'

/-- Coverage invariant of the merge walk: from a well-formed state, the bits
covered by the output of `sdLoop` are exactly the bits of the current sector
fragment and of the remaining sectors minus the bits of the current expanded
weak window and of the remaining (tolerance-expanded) weak ranges. -/
theorem sdLoop_cov (T : Int) (hT : T ≤ 2 ^ 30) :
    ∀ (s e ws we : Int) (weak sectors : List Range),
    s ≤ e → e ≤ T → s ≤ 2 ^ 30 + 16 →
    (∀ r ∈ sectors, e ≤ r.1 ∧ 0 ≤ r.2 ∧ r.1 + r.2 ≤ T) →
    List.Chain' (fun p q => p.1 + p.2 ≤ q.1) sectors →
    List.Chain' (fun a b => a ≤ b) (ws :: weak.map Prod.fst) →
    (∀ w ∈ weak, w.1 + w.2 ≤ T ∨ 2 ^ 30 ≤ w.1) →
    (we ≤ T + 16 ∨ 2 ^ 30 ≤ ws) →
    ((∃ w ∈ weak, 2 ^ 30 + 1 ≤ w.1 + w.2) ∨ 2 ^ 30 + 17 ≤ we) →
    ∀ x : Int,
      (∃ r ∈ sdLoop s e ws we weak sectors, inR x r) ↔
      (((s ≤ x ∧ x < e) ∨ ∃ r ∈ sectors, inR x r) ∧
        ¬ weakCov x ws we weak) := by
  intro s e ws we weak sectors
  induction s, e, ws, we, weak, sectors using sdLoop.induct with
  | case1 s e ws we weak sectors h =>
    intro hse heT hs16 hsec hch hwsort hwbnd hwc hbig x
    exact absurd h (advanceWeak_ne_none s ws we weak hs16 hbig)
  | case2 s e ws we weak sectors ws' we' weak' h hlt ihm ihc =>
    intro hse heT hs16 hsec hch hwsort hwbnd hwc hbig x
    rw [sdLoop_some s e ws we weak sectors ws' we' weak' h, if_pos hlt]
    have hstop := advanceWeak_stop s ws we weak ws' we' weak' h
    have hsort' := advanceWeak_sorted s ws we weak ws' we' weak' h hwsort
    obtain ⟨hwbnd', hwc'⟩ :=
      advanceWeak_bnd T s ws we weak ws' we' weak' h hwbnd hwc
    have hbig' := advanceWeak_big s ws we weak ws' we' weak' h hs16 hbig
    have hcur' : we' ≤ T + 16 := by
      rcases hwc' with h1 | h1
      · exact h1
      · omega
    have htr : ∀ y : Int, s ≤ y →
        (weakCov y ws we weak ↔ weakCov y ws' we' weak') :=
      fun y hy => advanceWeak_cov s ws we weak ws' we' weak' h y hy
    have hnotnew : ∀ y : Int, y < ws' → ¬ weakCov y ws' we' weak' := by
      intro y hy hc
      rcases hc with ⟨h1, h2⟩ | ⟨w, hw, hin⟩
      · omega
      · have h3 := sorted_head_le ws' weak' hsort' w hw
        obtain ⟨hin1, hin2⟩ := hin
        omega
    have hincursor : ∀ y : Int, ws' ≤ y → y < we' →
        weakCov y ws' we' weak' := fun y h1 h2 => Or.inl ⟨h1, h2⟩
    by_cases hge : we' ≥ e
    · rw [if_pos hge]
      match sectors, hsec, hch, ihm with
      | [], hsec, hch, _ =>
        constructor
        · rintro ⟨r, hr, hxr⟩
          rw [List.append_nil] at hr
          by_cases hsw : s < ws'
          · rw [if_pos hsw] at hr
            simp only [List.mem_singleton] at hr
            subst hr
            obtain ⟨hx1, hx2⟩ := hxr
            refine ⟨Or.inl ⟨hx1, by omega⟩, ?_⟩
            rw [htr x hx1]
            exact hnotnew x (by omega)
          · rw [if_neg hsw] at hr
            exact absurd hr (by simp)
        · rintro ⟨hcov, hnw⟩
          rcases hcov with ⟨hx1, hx2⟩ | ⟨r, hr, _⟩
          · rw [htr x hx1] at hnw
            have hxlt : x < ws' := by
              by_contra hge2
              exact hnw (hincursor x (by omega) (by omega))
            refine ⟨(s, ws' - s), ?_, hx1, by omega⟩
            rw [List.append_nil, if_pos (by omega)]
            simp
          · exact absurd hr (by simp)
      | (s2, l2) :: rest, hsec, hch, ihm =>
        have hs2 := hsec (s2, l2) (List.mem_cons_self _ _)
        have hrest : ∀ q ∈ rest, s2 + l2 ≤ q.1 ∧ 0 ≤ q.2 ∧ q.1 + q.2 ≤ T :=
          fun q hq =>
            ⟨chain_head_le (s2, l2) rest hch
              (fun p hp => (hsec p (List.mem_cons_of_mem _ hp)).2.1) q hq,
             (hsec q (List.mem_cons_of_mem _ hq)).2.1,
             (hsec q (List.mem_cons_of_mem _ hq)).2.2⟩
        have ihB := ihm (by omega) (by omega) (by omega) hrest
          (List.Chain'.tail hch) hsort' hwbnd' hwc' hbig'
        constructor
        · rintro ⟨r, hr, hxr⟩
          rcases List.mem_append.mp hr with hy | hrec
          · by_cases hsw : s < ws'
            · rw [if_pos hsw] at hy
              simp only [List.mem_singleton] at hy
              subst hy
              obtain ⟨hx1, hx2⟩ := hxr
              refine ⟨Or.inl ⟨hx1, by omega⟩, ?_⟩
              rw [htr x hx1]
              exact hnotnew x (by omega)
            · rw [if_neg hsw] at hy
              exact absurd hy (by simp)
          · obtain ⟨hcov', hnw'⟩ := (ihB x).mp ⟨r, hrec, hxr⟩
            have hex : e ≤ x := by
              rcases hcov' with ⟨h1, h2⟩ | ⟨q, hq, hq2⟩
              · omega
              · have h4 := hrest q hq
                obtain ⟨hq21, hq22⟩ := hq2
                omega
            refine ⟨?_, ?_⟩
            · rcases hcov' with hc | ⟨q, hq, hq2⟩
              · exact Or.inr ⟨(s2, l2), List.mem_cons_self _ _, hc⟩
              · exact Or.inr ⟨q, List.mem_cons_of_mem _ hq, hq2⟩
            · rw [htr x (by omega)]
              exact hnw'
        · rintro ⟨hcov, hnw⟩
          have hsx : s ≤ x := by
            rcases hcov with ⟨h1, _⟩ | ⟨q, hq, hq2⟩
            · exact h1
            · have h4 := hsec q hq
              obtain ⟨hq21, hq22⟩ := hq2
              omega
          rw [htr x hsx] at hnw
          by_cases hxe : x < e
          · have hfrag : s ≤ x ∧ x < e := by
              rcases hcov with hc | ⟨q, hq, hq2⟩
              · exact hc
              · have h4 := hsec q hq
                obtain ⟨hq21, hq22⟩ := hq2
                omega
            have hxlt : x < ws' := by
              by_contra hge2
              exact hnw (hincursor x (by omega) (by omega))
            refine ⟨(s, ws' - s), List.mem_append_left _ ?_, hfrag.1, by omega⟩
            rw [if_pos (by omega)]
            simp
          · have hcov2 : (s2 ≤ x ∧ x < s2 + l2) ∨ ∃ q ∈ rest, inR x q := by
              rcases hcov with hc | ⟨q, hq, hq2⟩
              · omega
              · rcases List.mem_cons.mp hq with heq | hq3
                · subst heq
                  exact Or.inl hq2
                · exact Or.inr ⟨q, hq3, hq2⟩
            obtain ⟨r, hr, hxr⟩ := (ihB x).mpr ⟨hcov2, hnw⟩
            exact ⟨r, List.mem_append_right _ hr, hxr⟩
    · rw [if_neg hge]
      have ihA := ihc (by omega) heT (by omega) hsec hch hsort' hwbnd'
        hwc' hbig'
      constructor
      · rintro ⟨r, hr, hxr⟩
        rcases List.mem_append.mp hr with hy | hrec
        · by_cases hsw : s < ws'
          · rw [if_pos hsw] at hy
            simp only [List.mem_singleton] at hy
            subst hy
            obtain ⟨hx1, hx2⟩ := hxr
            refine ⟨Or.inl ⟨hx1, by omega⟩, ?_⟩
            rw [htr x hx1]
            exact hnotnew x (by omega)
          · rw [if_neg hsw] at hy
            exact absurd hy (by simp)
        · obtain ⟨hcov', hnw'⟩ := (ihA x).mp ⟨r, hrec, hxr⟩
          have hwex : we' ≤ x := by
            rcases hcov' with ⟨h1, _⟩ | ⟨q, hq, hq2⟩
            · exact h1
            · have h4 := hsec q hq
              obtain ⟨hq21, hq22⟩ := hq2
              omega
          refine ⟨?_, ?_⟩
          · rcases hcov' with ⟨h1, h2⟩ | hq
            · exact Or.inl ⟨by omega, h2⟩
            · exact Or.inr hq
          · rw [htr x (by omega)]
            exact hnw'
      · rintro ⟨hcov, hnw⟩
        have hsx : s ≤ x := by
          rcases hcov with ⟨h1, _⟩ | ⟨q, hq, hq2⟩
          · exact h1
          · have h4 := hsec q hq
            obtain ⟨hq21, hq22⟩ := hq2
            omega
        rw [htr x hsx] at hnw
        by_cases hxw : x < we'
        · have hxlt : x < ws' := by
            by_contra hge2
            exact hnw (hincursor x (by omega) hxw)
          have hfrag : s ≤ x ∧ x < e := by
            rcases hcov with hc | ⟨q, hq, hq2⟩
            · exact hc
            · have h4 := hsec q hq
              obtain ⟨hq21, hq22⟩ := hq2
              omega
          refine ⟨(s, ws' - s), List.mem_append_left _ ?_, hfrag.1, by omega⟩
          rw [if_pos (by omega)]
          simp
        · have hcov2 : (we' ≤ x ∧ x < e) ∨ ∃ q ∈ sectors, inR x q := by
            rcases hcov with ⟨h1, h2⟩ | hq
            · exact Or.inl ⟨by omega, h2⟩
            · exact Or.inr hq
          obtain ⟨r, hr, hxr⟩ := (ihA x).mpr ⟨hcov2, hnw⟩
          exact ⟨r, List.mem_append_right _ hr, hxr⟩
  | case3 s e ws we weak sectors ws' we' weak' h hlt ihm =>
    intro hse heT hs16 hsec hch hwsort hwbnd hwc hbig x
    rw [sdLoop_some s e ws we weak sectors ws' we' weak' h, if_neg hlt]
    have hstop := advanceWeak_stop s ws we weak ws' we' weak' h
    have hsort' := advanceWeak_sorted s ws we weak ws' we' weak' h hwsort
    obtain ⟨hwbnd', hwc'⟩ :=
      advanceWeak_bnd T s ws we weak ws' we' weak' h hwbnd hwc
    have hbig' := advanceWeak_big s ws we weak ws' we' weak' h hs16 hbig
    have htr : ∀ y : Int, s ≤ y →
        (weakCov y ws we weak ↔ weakCov y ws' we' weak') :=
      fun y hy => advanceWeak_cov s ws we weak ws' we' weak' h y hy
    have hnotnew : ∀ y : Int, y < ws' → ¬ weakCov y ws' we' weak' := by
      intro y hy hc
      rcases hc with ⟨h1, h2⟩ | ⟨w, hw, hin⟩
      · omega
      · have h3 := sorted_head_le ws' weak' hsort' w hw
        obtain ⟨hin1, hin2⟩ := hin
        omega
    have hgew : e ≤ ws' := by omega
    match sectors, hsec, hch, ihm with
    | [], hsec, hch, _ =>
      constructor
      · rintro ⟨r, hr, hxr⟩
        rcases List.mem_cons.mp hr with heq | hrec
        · subst heq
          obtain ⟨hx1, hx2⟩ := hxr
          refine ⟨Or.inl ⟨hx1, by omega⟩, ?_⟩
          rw [htr x hx1]
          exact hnotnew x (by omega)
        · exact absurd hrec (by simp)
      · rintro ⟨hcov, hnw⟩
        rcases hcov with ⟨hx1, hx2⟩ | ⟨q, hq, _⟩
        · exact ⟨(s, e - s), List.mem_cons_self _ _, hx1, by omega⟩
        · exact absurd hq (by simp)
    | (s2, l2) :: rest, hsec, hch, ihm =>
      have hs2 := hsec (s2, l2) (List.mem_cons_self _ _)
      have hrest : ∀ q ∈ rest, s2 + l2 ≤ q.1 ∧ 0 ≤ q.2 ∧ q.1 + q.2 ≤ T :=
        fun q hq =>
          ⟨chain_head_le (s2, l2) rest hch
            (fun p hp => (hsec p (List.mem_cons_of_mem _ hp)).2.1) q hq,
           (hsec q (List.mem_cons_of_mem _ hq)).2.1,
           (hsec q (List.mem_cons_of_mem _ hq)).2.2⟩
      have ihB := ihm (by omega) (by omega) (by omega) hrest
        (List.Chain'.tail hch) hsort' hwbnd' hwc' hbig'
      constructor
      · rintro ⟨r, hr, hxr⟩
        rcases List.mem_cons.mp hr with heq | hrec
        · subst heq
          obtain ⟨hx1, hx2⟩ := hxr
          refine ⟨Or.inl ⟨hx1, by omega⟩, ?_⟩
          rw [htr x hx1]
          exact hnotnew x (by omega)
        · obtain ⟨hcov', hnw'⟩ := (ihB x).mp ⟨r, hrec, hxr⟩
          have hex : e ≤ x := by
            rcases hcov' with ⟨h1, h2⟩ | ⟨q, hq, hq2⟩
            · omega
            · have h4 := hrest q hq
              obtain ⟨hq21, hq22⟩ := hq2
              omega
          refine ⟨?_, ?_⟩
          · rcases hcov' with hc | ⟨q, hq, hq2⟩
            · exact Or.inr ⟨(s2, l2), List.mem_cons_self _ _, hc⟩
            · exact Or.inr ⟨q, List.mem_cons_of_mem _ hq, hq2⟩
          · rw [htr x (by omega)]
            exact hnw'
      · rintro ⟨hcov, hnw⟩
        have hsx : s ≤ x := by
          rcases hcov with ⟨h1, _⟩ | ⟨q, hq, hq2⟩
          · exact h1
          · have h4 := hsec q hq
            obtain ⟨hq21, hq22⟩ := hq2
            omega
        rw [htr x hsx] at hnw
        by_cases hxe : x < e
        · have hfrag : s ≤ x ∧ x < e := by
            rcases hcov with hc | ⟨q, hq, hq2⟩
            · exact hc
            · have h4 := hsec q hq
              obtain ⟨hq21, hq22⟩ := hq2
              omega
          exact ⟨(s, e - s), List.mem_cons_self _ _, hfrag.1, by omega⟩
        · have hcov2 : (s2 ≤ x ∧ x < s2 + l2) ∨ ∃ q ∈ rest, inR x q := by
            rcases hcov with hc | ⟨q, hq, hq2⟩
            · omega
            · rcases List.mem_cons.mp hq with heq | hq3
              · subst heq
                exact Or.inl hq2
              · exact Or.inr ⟨q, hq3, hq2⟩
          obtain ⟨r, hr, hxr⟩ := (ihB x).mpr ⟨hcov2, hnw⟩
          exact ⟨r, List.mem_cons_of_mem _ hr, hxr⟩

theorem sent_sorted (T : Int) (hT : T ≤ 2 ^ 30) :
    ∀ (c : Int) (W : List Range), c ≤ 2 ^ 30 →
    (∀ w ∈ W, c ≤ w.1 ∧ 0 ≤ w.2 ∧ w.1 + w.2 ≤ T) →
    List.Chain' (fun p q => p.1 + p.2 ≤ q.1) W →
    List.Chain' (fun a b => a ≤ b)
      (c :: (W ++ [((2 : Int) ^ 30, 1)]).map Prod.fst) := by
  intro c W
  induction W generalizing c with
  | nil =>
    intro hc _ _
    simp only [List.nil_append, List.map_cons, List.map_nil]
    exact List.chain'_cons.mpr ⟨hc, List.chain'_singleton _⟩
  | cons a rest ih =>
    intro hc hmem hch
    simp only [List.cons_append, List.map_cons]
    refine List.chain'_cons.mpr ⟨(hmem a (List.mem_cons_self a rest)).1, ?_⟩
    have ha := hmem a (List.mem_cons_self a rest)
    have hrest : ∀ w ∈ rest, a.1 ≤ w.1 ∧ 0 ≤ w.2 ∧ w.1 + w.2 ≤ T := by
      intro w hw
      have h1 := chain_head_le a rest hch
        (fun p hp => (hmem p (List.mem_cons_of_mem _ hp)).2.1) w hw
      have h2 := hmem w (List.mem_cons_of_mem _ hw)
      exact ⟨by omega, h2.2.1, h2.2.2⟩
    have := ih a.1 (by omega) hrest (List.Chain'.tail hch)
    simpa using this

/-- C1: for well-formed sector and weak lists (ascending, disjoint, within
the track bounds `[0, T]`, `T ≤ 2^30`), with the fixed tolerance 16:
every yielded range is disjoint from every tolerance-expanded weak range,
every yielded range is contained in some sector range, the union of the
yielded ranges is exactly `union(S) − union(expand(W, 16))` (no bit of the
difference is lost), and the yielded ranges are pairwise disjoint (no bit is
duplicated). -/
theorem strong_data_spec (T : Int) (hT : T ≤ 2 ^ 30) (S W : List Range)
    (hS : wfRanges T S) (hW : wfRanges T W) :
    (∀ r ∈ strong_data S W, ∀ w ∈ W, ∀ x : Int, inR x r → ¬ inExp x w) ∧
    (∀ r ∈ strong_data S W,
      ∃ sec ∈ S, sec.1 ≤ r.1 ∧ r.1 + r.2 ≤ sec.1 + sec.2) ∧
    (∀ x : Int, (∃ r ∈ strong_data S W, inR x r) ↔
      ((∃ sec ∈ S, inR x sec) ∧ ∀ w ∈ W, ¬ inExp x w)) ∧
    List.Pairwise (fun a b => ∀ x : Int, ¬ (inR x a ∧ inR x b))
      (strong_data S W) := by
  obtain ⟨hSmem, hSch⟩ := hS
  obtain ⟨hWmem, hWch⟩ := hW
  cases S with
  | nil =>
    refine ⟨by simp [strong_data], by simp [strong_data], ?_, by simp [strong_data]⟩
    intro x
    simp [strong_data]
  | cons a rest =>
    obtain ⟨s0, l0⟩ := a
    have h0 := hSmem (s0, l0) (List.mem_cons_self _ _)
    have hse : s0 ≤ s0 + l0 := by omega
    have heT : s0 + l0 ≤ T := by omega
    have hs16 : s0 ≤ 2 ^ 30 + 16 := by omega
    have hsec : ∀ r ∈ rest, s0 + l0 ≤ r.1 ∧ 0 ≤ r.2 ∧ r.1 + r.2 ≤ T := by
      intro q hq
      have h1 := chain_head_le (s0, l0) rest hSch
        (fun p hp => (hSmem p (List.mem_cons_of_mem _ hp)).2.1) q hq
      have h2 := hSmem q (List.mem_cons_of_mem _ hq)
      exact ⟨h1, h2.2.1, h2.2.2⟩
    have hwsort : List.Chain' (fun a b => a ≤ b)
        ((-1 : Int) :: ((W ++ [((2 : Int) ^ 30, 1)]).map Prod.fst)) := by
      refine sent_sorted T hT (-1) W (by norm_num) ?_ hWch
      intro w hw
      have := hWmem w hw
      exact ⟨by omega, this.2.1, this.2.2⟩
    have hwbnd : ∀ w ∈ W ++ [((2 : Int) ^ 30, 1)],
        w.1 + w.2 ≤ T ∨ 2 ^ 30 ≤ w.1 := by
      intro w hw
      rcases List.mem_append.mp hw with h1 | h1
      · exact Or.inl (hWmem w h1).2.2
      · simp only [List.mem_singleton] at h1
        subst h1
        exact Or.inr (by norm_num)
    have hwc : (-1 : Int) ≤ T + 16 ∨ (2 : Int) ^ 30 ≤ -1 := Or.inl (by omega)
    have hbig : (∃ w ∈ W ++ [((2 : Int) ^ 30, 1)], 2 ^ 30 + 1 ≤ w.1 + w.2) ∨
        (2 : Int) ^ 30 + 17 ≤ -1 :=
      Or.inl ⟨((2 : Int) ^ 30, 1),
        List.mem_append_right _ (List.mem_singleton.mpr rfl), by norm_num⟩
    have hout : strong_data ((s0, l0) :: rest) W =
        sdLoop s0 (s0 + l0) (-1) (-1) (W ++ [((2 : Int) ^ 30, 1)]) rest := rfl
    have hcov := sdLoop_cov T hT s0 (s0 + l0) (-1) (-1)
      (W ++ [((2 : Int) ^ 30, 1)]) rest hse heT hs16 hsec
      (List.Chain'.tail hSch) hwsort hwbnd hwc hbig
    have hunion : ∀ x : Int,
        (∃ r ∈ strong_data ((s0, l0) :: rest) W, inR x r) ↔
        ((∃ sec ∈ (s0, l0) :: rest, inR x sec) ∧ ∀ w ∈ W, ¬ inExp x w) := by
      intro x
      rw [hout, hcov x]
      constructor
      · rintro ⟨hc, hnw⟩
        refine ⟨?_, ?_⟩
        · rcases hc with h1 | ⟨q, hq, hq2⟩
          · exact ⟨(s0, l0), List.mem_cons_self _ _, h1⟩
          · exact ⟨q, List.mem_cons_of_mem _ hq, hq2⟩
        · intro w hw hxw
          exact hnw (Or.inr ⟨w, List.mem_append_left _ hw, hxw⟩)
      · rintro ⟨⟨sec, hsecm, hx⟩, hWnot⟩
        have hsecb := hSmem sec hsecm
        obtain ⟨hx1, hx2⟩ := hx
        refine ⟨?_, ?_⟩
        · rcases List.mem_cons.mp hsecm with heq | hq
          · subst heq
            exact Or.inl ⟨hx1, hx2⟩
          · exact Or.inr ⟨sec, hq, hx1, hx2⟩
        · intro hc
          rcases hc with ⟨hc1, hc2⟩ | ⟨w, hw, hin⟩
          · omega
          · rcases List.mem_append.mp hw with h1 | h1
            · exact hWnot w h1 hin
            · simp only [List.mem_singleton] at h1
              subst h1
              obtain ⟨hin1, hin2⟩ := hin
              simp only [] at hin1
              omega
    refine ⟨?_, ?_, hunion, ?_⟩
    · intro r hr w hw x hxr hxw
      have h1 := (hunion x).mp ⟨r, hr, hxr⟩
      exact h1.2 w hw hxw
    · intro r hr
      rw [hout] at hr
      rcases sdLoop_subset s0 (s0 + l0) (-1) (-1) _ rest r hr with
        ⟨h1, h2⟩ | ⟨sec, hsecm, hb⟩
      · exact ⟨(s0, l0), List.mem_cons_self _ _, h1, h2⟩
      · exact ⟨sec, List.mem_cons_of_mem _ hsecm, hb⟩
    · rw [hout]
      have hpw := sdLoop_pairwise s0 (s0 + l0) (-1) (-1)
        (W ++ [((2 : Int) ^ 30, 1)]) rest hse
        (fun q hq => ⟨(hsec q hq).1, (hsec q hq).2.1⟩)
        (List.Chain'.tail hSch)
        (by
          intro w hw
          rcases List.mem_append.mp hw with h1 | h1
          · exact (hWmem w h1).2.1
          · simp only [List.mem_singleton] at h1
            subst h1
            norm_num)
        (le_refl _)
      refine hpw.imp ?_
      intro a b hab x hx
      obtain ⟨⟨ha1, ha2⟩, ⟨hb1, hb2⟩⟩ := hx
      omega

/-- Witness for C1 at `T = 100`, `S = [(0,100)]`, `W = [(40,10)]`. -/
theorem strong_data_spec_witness :
    (100 : Int) ≤ 2 ^ 30 ∧
    wfRanges 100 [((0 : Int), (100 : Int))] ∧
    wfRanges 100 [((40 : Int), (10 : Int))] ∧
    (∀ r ∈ strong_data [((0 : Int), (100 : Int))] [((40 : Int), (10 : Int))],
      ∀ w ∈ [((40 : Int), (10 : Int))], ∀ x : Int, inR x r → ¬ inExp x w) :=
  ⟨by norm_num,
   ⟨by intro r hr; simp only [List.mem_singleton] at hr; subst hr; norm_num,
    List.chain'_singleton _⟩,
   ⟨by intro r hr; simp only [List.mem_singleton] at hr; subst hr; norm_num,
    List.chain'_singleton _⟩,
   (strong_data_spec 100 (by norm_num) [((0 : Int), (100 : Int))]
     [((40 : Int), (10 : Int))]
     ⟨by intro r hr; simp only [List.mem_singleton] at hr; subst hr; norm_num,
      List.chain'_singleton _⟩
     ⟨by intro r hr; simp only [List.mem_singleton] at hr; subst hr; norm_num,
      List.chain'_singleton _⟩).1⟩

theorem sdLoopSent : ∀ (sectors : List Range) (s l : Int),
    0 ≤ s → 0 ≤ l → s + l ≤ 2 ^ 30 →
    (∀ r ∈ sectors, 0 ≤ r.1 ∧ 0 ≤ r.2 ∧ r.1 + r.2 ≤ 2 ^ 30) →
    sdLoop s (s + l) (2 ^ 30) (2 ^ 30 + 17) [] sectors = (s, l) :: sectors := by
  intro sectors
  induction sectors with
  | nil =>
    intro s l hs hl hsl hmem
    have hadv : advanceWeak s (2 ^ 30) (2 ^ 30 + 17) ([] : List Range) =
        some (2 ^ 30, 2 ^ 30 + 17, []) := by
      rw [advanceWeak, if_neg (by omega)]
    rw [sdLoop_some _ _ _ _ _ _ _ _ _ hadv, if_neg (by omega)]
    norm_num
  | cons a rest ih =>
    intro s l hs hl hsl hmem
    obtain ⟨a1, a2⟩ := a
    have ha := hmem (a1, a2) (List.mem_cons_self _ _)
    have hadv : advanceWeak s (2 ^ 30) (2 ^ 30 + 17) ([] : List Range) =
        some (2 ^ 30, 2 ^ 30 + 17, []) := by
      rw [advanceWeak, if_neg (by omega)]
    rw [sdLoop_some _ _ _ _ _ _ _ _ _ hadv, if_neg (by omega)]
    show (s, s + l - s) ::
        sdLoop a1 (a1 + a2) (2 ^ 30) (2 ^ 30 + 17) [] rest =
      (s, l) :: (a1, a2) :: rest
    rw [ih a1 a2 (by omega) (by omega) (by omega)
      (fun q hq => hmem q (List.mem_cons_of_mem _ hq))]
    norm_num

/-- C6: with an empty weak list, `strong_data` yields exactly the sector list,
unchanged and in order. -/
theorem strong_data_empty_weak (T : Int) (hT : T ≤ 2 ^ 30) (S : List Range)
    (hS : wfRanges T S) : strong_data S [] = S := by
  obtain ⟨hSmem, hSch⟩ := hS
  cases S with
  | nil => rfl
  | cons a rest =>
    obtain ⟨s0, l0⟩ := a
    have h0 := hSmem (s0, l0) (List.mem_cons_self _ _)
    have hadv : advanceWeak s0 (-1) (-1) ([] ++ [((2 : Int) ^ 30, 1)]) =
        some (2 ^ 30, 2 ^ 30 + 17, []) := by
      simp only [List.nil_append]
      rw [advanceWeak, if_pos (by omega), advanceWeak, if_neg (by omega)]
      norm_num
    show sdLoop s0 (s0 + l0) (-1) (-1) ([] ++ [((2 : Int) ^ 30, 1)]) rest =
      (s0, l0) :: rest
    rw [sdLoop_some _ _ _ _ _ _ _ _ _ hadv, if_neg (by omega)]
    cases rest with
    | nil => norm_num
    | cons b rest2 =>
      obtain ⟨b1, b2⟩ := b
      have hb := hSmem (b1, b2) (List.mem_cons_of_mem _ (List.mem_cons_self _ _))
      show (s0, s0 + l0 - s0) ::
          sdLoop b1 (b1 + b2) (2 ^ 30) (2 ^ 30 + 17) [] rest2 =
        (s0, l0) :: (b1, b2) :: rest2
      rw [sdLoopSent rest2 b1 b2 (by omega) (by omega) (by omega)
        (fun q hq => by
          have := hSmem q
            (List.mem_cons_of_mem _ (List.mem_cons_of_mem _ hq))
          omega)]
      norm_num

/-- Witness for C6 at `T = 100`, `S = [(3,5), (20,7)]`. -/
theorem strong_data_empty_weak_witness :
    (100 : Int) ≤ 2 ^ 30 ∧
    wfRanges 100 [((3 : Int), (5 : Int)), ((20 : Int), (7 : Int))] ∧
    strong_data [((3 : Int), (5 : Int)), ((20 : Int), (7 : Int))] [] =
      [((3 : Int), (5 : Int)), ((20 : Int), (7 : Int))] := by
  have hwf : wfRanges 100 [((3 : Int), (5 : Int)), ((20 : Int), (7 : Int))] := by
    constructor
    · intro r hr
      rcases List.mem_cons.mp hr with rfl | hr2
      · norm_num
      · simp only [List.mem_singleton] at hr2
        subst hr2
        norm_num
    · exact List.chain'_cons.mpr ⟨by norm_num, List.chain'_singleton _⟩
  exact ⟨by norm_num, hwf,
    strong_data_empty_weak 100 (by norm_num) _ hwf⟩

-- C8: zero-length sector ranges are passed through, refuting the claim as
-- stated; with strictly positive sector lengths every yield is positive.

/-- C8 counterexample: the input `sectors = [(5,0)]`, `weak = []` is
well-formed in the claim's sense (ascending, disjoint, in bounds, lengths
≥ 0), yet `strong_data` yields the zero-length range `(5,0)`. -/
theorem strong_data_zero_len_cex :
    wfRanges 100 [((5 : Int), (0 : Int))] ∧ wfRanges 100 ([] : List Range) ∧
    ((5 : Int), (0 : Int)) ∈ strong_data [((5 : Int), (0 : Int))] [] ∧
    ¬ (0 < ((5 : Int), (0 : Int)).2) := by
  have hwf : wfRanges 100 [((5 : Int), (0 : Int))] := by
    constructor
    · intro r hr
      simp only [List.mem_singleton] at hr
      subst hr
      norm_num
    · exact List.chain'_singleton _
  refine ⟨hwf, ⟨by simp, by simp⟩, ?_, by norm_num⟩
  have hval : strong_data [((5 : Int), (0 : Int))] [] = [(5, 0)] := by
    rw [strong_data]
    norm_num
    rw [sdLoop_some 5 5 (-1) (-1) _ _ (2 ^ 30) (2 ^ 30 + 17) []
      (by rw [advanceWeak]; norm_num; rw [advanceWeak]; norm_num)]
    norm_num
  rw [hval]
  simp

/-- C8 amended: for well-formed inputs whose sector ranges all have strictly
positive length (weak lengths may still be zero), every range yielded by
`strong_data` has strictly positive length. -/
theorem strong_data_pos (T : Int) (hT : T ≤ 2 ^ 30) (S W : List Range)
    (hS : wfRanges T S) (hSpos : ∀ r ∈ S, 0 < r.2) (hW : wfRanges T W) :
    ∀ r ∈ strong_data S W, 0 < r.2 := by
  cases S with
  | nil => simp [strong_data]
  | cons a rest =>
    obtain ⟨s0, l0⟩ := a
    have h0 := hSpos (s0, l0) (List.mem_cons_self _ _)
    show ∀ r ∈ sdLoop s0 (s0 + l0) (-1) (-1)
      (W ++ [((2 : Int) ^ 30, 1)]) rest, 0 < r.2
    exact sdLoop_pos s0 (s0 + l0) (-1) (-1) _ rest (by omega)
      (fun q hq => hSpos q (List.mem_cons_of_mem _ hq))

/-- Witness for C8 (amended) at `T = 100`, `S = [(0,100)]`, `W = [(40,10)]`. -/
theorem strong_data_pos_witness :
    (100 : Int) ≤ 2 ^ 30 ∧
    wfRanges 100 [((0 : Int), (100 : Int))] ∧
    (∀ r ∈ [((0 : Int), (100 : Int))], 0 < r.2) ∧
    wfRanges 100 [((40 : Int), (10 : Int))] ∧
    (∀ r ∈ strong_data [((0 : Int), (100 : Int))] [((40 : Int), (10 : Int))],
      0 < r.2) :=
  ⟨by norm_num,
   ⟨by intro r hr; simp only [List.mem_singleton] at hr; subst hr; norm_num,
    List.chain'_singleton _⟩,
   by intro r hr; simp only [List.mem_singleton] at hr; subst hr; norm_num,
   ⟨by intro r hr; simp only [List.mem_singleton] at hr; subst hr; norm_num,
    List.chain'_singleton _⟩,
   strong_data_pos 100 (by norm_num) [((0 : Int), (100 : Int))]
     [((40 : Int), (10 : Int))]
     ⟨by intro r hr; simp only [List.mem_singleton] at hr; subst hr; norm_num,
      List.chain'_singleton _⟩
     (by intro r hr; simp only [List.mem_singleton] at hr; subst hr; norm_num)
     ⟨by intro r hr; simp only [List.mem_singleton] at hr; subst hr; norm_num,
      List.chain'_singleton _⟩⟩

end GW
